import Mathlib

/-
Shallow embedding of the arbitrage-detection subscriber
(src/subscriber.py and src/fxp_bytes_subscriber.py).

Python dicts are modelled as insertion-ordered association lists,
quote prices and edge weights as real numbers, and instants as rational
seconds (timestamps have microsecond precision, so rationals embed them
exactly).  Fallible decoding is modelled with Option.
-/

namespace Arb

section AList

variable {K V : Type} [DecidableEq K]

/-- First-match lookup in an association list (Python dict read `m[k]` / `m.get(k)`). -/
def alookup (k : K) : List (K × V) → Option V
  | [] => none
  | e :: m => if e.1 = k then some e.2 else alookup k m

/-- Update the value stored at key `k` in place (no effect on other keys). -/
def updval (m : List (K × V)) (k : K) (f : V → V) : List (K × V) :=
  m.map (fun e => if e.1 = k then (e.1, f e.2) else e)

/-- Python dict assignment `m[k] = v`: overwrite in place if the key is
present, otherwise append the new binding (insertion order). -/
def dset (m : List (K × V)) (k : K) (v : V) : List (K × V) :=
  if (alookup k m).isSome then updval m k (fun _ => v) else m ++ [(k, v)]

end AList

section Graph

variable {C W : Type} [DecidableEq C]

/-- The rate graph type of `Subscriber.rate_graph`: outer dict from source
currency to the inner dict of destination currency to edge weight. -/
abbrev Graph (C W : Type) := List (C × List (C × W))

/-- The guard `if c not in rate_graph: rate_graph[c] = {}` in `add_to_graph`. -/
def ensure_node (g : Graph C W) (c : C) : Graph C W :=
  if (alookup c g).isSome then g else g ++ [(c, [])]

/-- The assignment `rate_graph[s][t] = w` in `add_to_graph` (after the
`ensure_node` guard has run). -/
def set_edge (g : Graph C W) (s t : C) (w : W) : Graph C W :=
  updval (ensure_node g s) s (fun inner => dset inner t w)

/-- Read the weight of the directed edge `s -> t`, if present. -/
def glookup (g : Graph C W) (s t : C) : Option W :=
  match alookup s g with
  | none => none
  | some inner => alookup t inner

/-- The guarded deletion `if s in g and t in g[s]: del g[s][t]` in
`cleanup_graph`: the outer key survives even if its inner dict empties. -/
def delInner (g : Graph C W) (s t : C) : Graph C W :=
  updval g s (fun inner => inner.filter (fun p => decide (p.1 ≠ t)))

end Graph

/-- QUOTE_EXPIRATION_TIME = 0.1 seconds (subscriber.py line 10). -/
def QUOTE_EXPIRATION_TIME : ℚ := 1 / 10

/-- QUOTE_STALE_TIMEOUT = 1.5 seconds (subscriber.py line 12). -/
def QUOTE_STALE_TIMEOUT : ℚ := 3 / 2

/-- ARBITRAGE_START_AMOUNT = 100 (subscriber.py line 13). -/
noncomputable def ARBITRAGE_START_AMOUNT : ℝ := 100

/-- The mutable state of `Subscriber`: the rate graph and the per-directed-pair
quote timestamp index. -/
structure SubState (C W : Type) where
  rate_graph : Graph C W
  quote_timestamps : List ((C × C) × ℚ)

section Subscriber

variable {C W : Type} [DecidableEq C]

/-- Subscriber.add_to_graph: store weight `-ln price` on the edge
base -> quote and the negated weight on quote -> base, recording the quote's
timestamp for both directed pairs (subscriber.py lines 24-44). -/
noncomputable def add_to_graph (st : SubState C ℝ) (c1 c2 : C) (price : ℝ)
    (ts : ℚ) : SubState C ℝ :=
  let w : ℝ := -1 * Real.log price
  let g1 := set_edge st.rate_graph c1 c2 w
  let t1 := dset st.quote_timestamps (c1, c2) ts
  let g2 := set_edge g1 c2 c1 (-1 * w)
  let t2 := dset t1 (c2, c1) ts
  ⟨g2, t2⟩

/-- One iteration of the deletion loop in `Subscriber.cleanup_graph`
(lines 57-73): for a stale pair `p = (s, t)`, delete the graph edges
`s -> t` and `t -> s` and both timestamp entries, each guarded on presence. -/
def cleanupStep (st : SubState C W) (p : C × C) : SubState C W :=
  ⟨delInner (delInner st.rate_graph p.1 p.2) p.2 p.1,
   st.quote_timestamps.filter (fun e => decide (e.1 ≠ p) && decide (e.1 ≠ p.swap))⟩

/-- The `edges_to_delete` comprehension in `cleanup_graph` (lines 52-55):
every directed pair whose recorded timestamp is at or before the cutoff. -/
def stale_list (ts : List ((C × C) × ℚ)) (cut : ℚ) : List (C × C) :=
  (ts.filter (fun e => decide (e.2 ≤ cut))).map Prod.fst

/-- Subscriber.cleanup_graph, with the wall clock passed explicitly:
compute the stale pairs against `now - QUOTE_STALE_TIMEOUT`, then run the
deletion loop over them (subscriber.py lines 46-73). -/
def cleanup_graph (st : SubState C W) (now : ℚ) : SubState C W :=
  (stale_list st.quote_timestamps (now - QUOTE_STALE_TIMEOUT)).foldl cleanupStep st

/-- Decidable version of "the pair `p` has a stale recorded timestamp". -/
def staleB (ts : List ((C × C) × ℚ)) (cut : ℚ) (p : C × C) : Bool :=
  ts.any (fun e => decide (e.1 = p) && decide (e.2 ≤ cut))

/-- Python `predecessors.get(c)` where the dict stores `node | None`:
a missing key and a stored `None` both read as `none`. -/
def pget (preds : List (C × Option C)) (c : C) : Option C :=
  (alookup c preds).bind id

/-- The patch `if predecessors.get(v) is None: predecessors[v] = u` applied to
the proof edge `(u, v)` (subscriber.py lines 181-182). -/
def patch_preds (preds : List (C × Option C)) (u v : C) : List (C × Option C) :=
  if pget preds v = none then dset preds v (some u) else preds

/-- The bounded predecessor walk in `listen` (lines 189-192): repeat
`node = predecessors.get(node)` up to `n` times, breaking early when the
lookup yields nothing. -/
def walkN (preds : List (C × Option C)) : C → Nat → Option C
  | c, 0 => some c
  | c, Nat.succ n =>
    match pget preds c with
    | none => none
    | some c2 => walkN preds c2 n

/-- The node selected for cycle reconstruction in `listen` (lines 177-192):
patch the predecessor map with the proof edge, then walk back from its source
`len(rate_graph)` times. -/
def choose_cycle_node (g : Graph C W) (preds : List (C × Option C))
    (uv : C × C) : Option C :=
  walkN (patch_preds preds uv.1 uv.2) uv.1 g.length

/-- The walk-back loop of `Subscriber.print_arbitrage` (lines 92-101), fuelled:
starting from the successor of the start node, follow predecessors, stopping on
a missing predecessor or an already-visited node, and closing (appending the
start node) when the walk returns to it. -/
def walkSteps (preds : List (C × Option C)) (start : C) :
    List C → Option C → Nat → List C
  | _, _, 0 => []
  | _, none, _ + 1 => []
  | visited, some c, Nat.succ fuel =>
    if c ∈ visited then []
    else
      let next := pget preds c
      if next = some start then [c, start]
      else c :: walkSteps preds start (c :: visited) next fuel

/-- The `cycle_steps` list built by `print_arbitrage` (lines 84-103), already
reversed into forward trade order; `none` is the early return when the start
node has no predecessor (line 84). -/
def cycle_steps_of (preds : List (C × Option C)) (start : C) (fuel : Nat) :
    Option (List C) :=
  match pget preds start with
  | none => none
  | some c => some ((start :: walkSteps preds start [] (some c) fuel).reverse)

/-- The trade-replay loop of `print_arbitrage` (lines 115-134): multiply the
running amount by `exp(-1 * w)` for each step, failing if an edge is missing
from the graph. -/
noncomputable def replay (g : Graph C ℝ) : ℝ → C → List C → Option ℝ :=
  fun amount prev steps =>
    match steps with
    | [] => some amount
    | next :: rest =>
      match glookup g prev next with
      | none => none
      | some w => replay g (amount * Real.exp (-1 * w)) next rest

/-- Subscriber.print_arbitrage (lines 76-134), fuelled: returns the
reconstructed path and the final compounded amount, or `none` when nothing is
reported.  The replay runs over `steps.tail`; the source substitutes
`cycle_steps[0]` for the final destination, which under the `head = last`
guard is the element already there, so the substitution is the identity. -/
noncomputable def print_arbitrage (g : Graph C ℝ) (preds : List (C × Option C))
    (start : C) (amount : ℝ) (fuel : Nat) : Option (List C × ℝ) :=
  match cycle_steps_of preds start fuel with
  | none => none
  | some steps =>
    if steps.length < 2 then none
    else if steps.head? ≠ steps.getLast? then none
    else
      match replay g amount start steps.tail with
      | none => none
      | some fin => some (steps, fin)

/-- The proof-edge handling of `listen` (lines 177-198): pick the walk-back
node; if none is reached report nothing, otherwise reconstruct from it. -/
noncomputable def proof_edge_report (g : Graph C ℝ)
    (preds : List (C × Option C)) (uv : C × C) (amount : ℝ) (fuel : Nat) :
    Option (List C × ℝ) :=
  match choose_cycle_node g preds uv with
  | none => none
  | some c => print_arbitrage g (patch_preds preds uv.1 uv.2) c amount fuel

/-- The distinct keys of a predecessor map. -/
def keysOf (preds : List (C × Option C)) : List C :=
  (preds.map Prod.fst).dedup

/-- The distinct predecessor-map keys not yet visited by the walk-back loop. -/
def unvisitedCount (preds : List (C × Option C)) (visited : List C) : Nat :=
  ((keysOf preds).filter (fun k => !decide (k ∈ visited))).length

/-- A decoded quote as consumed by `listen`: base and quote currency (from
splitting the cross), price, and timestamp in seconds. -/
structure Quote (C : Type) where
  base : C
  quote : C
  price : ℝ
  timestamp : ℚ

/-- The per-quote freshness gate of `listen` (lines 152-166): accept the quote
(updating the graph and Last-Processed-Time) iff
`last_processed_time - timestamp < QUOTE_EXPIRATION_TIME`. -/
noncomputable def process_quote (st : SubState C ℝ) (lpt : ℚ) (q : Quote C) :
    SubState C ℝ × ℚ :=
  if lpt - q.timestamp < QUOTE_EXPIRATION_TIME then
    (add_to_graph st q.base q.quote q.price q.timestamp, q.timestamp)
  else
    (st, lpt)

/-- The per-datagram loop over decoded quotes in `listen` (line 152). -/
noncomputable def process_quotes (st : SubState C ℝ) (lpt : ℚ)
    (qs : List (Quote C)) : SubState C ℝ × ℚ :=
  qs.foldl (fun acc q => process_quote acc.1 acc.2 q) (st, lpt)

end Subscriber

/-- Little-endian byte-list to natural number (array frombytes, no byteswap,
as in `deserialize_price`). -/
def leNat (l : List Nat) : Nat :=
  l.foldr (fun b acc => b + 256 * acc) 0

/-- Big-endian byte-list to natural number (array frombytes then byteswap,
as in `deserialize_utcdatetime`). -/
def beNat (l : List Nat) : Nat :=
  l.foldl (fun acc b => 256 * acc + b) 0

/-- The value of an IEEE 754 binary32 bit pattern: a finite rational, an
infinity, or a NaN. -/
inductive F32 : Type where
  | finite (q : ℚ)
  | inf (negative : Bool)
  | nan
deriving DecidableEq

/-- Decode a 32-bit pattern as IEEE 754 binary32 (sign bit 31, 8 exponent
bits, 23 fraction bits; bias 127, subnormals at exponent 0). -/
def decodeF32 (bits : Nat) : F32 :=
  let sign : Nat := bits / 2 ^ 31 % 2
  let expo : Nat := bits / 2 ^ 23 % 2 ^ 8
  let frac : Nat := bits % 2 ^ 23
  if expo = 255 then (if frac = 0 then .inf (sign = 1) else .nan)
  else
    let mag : ℚ :=
      if expo = 0 then (frac : ℚ) * (2 : ℚ) ^ (-149 : ℤ)
      else ((2 ^ 23 + frac : ℕ) : ℚ) * (2 : ℚ) ^ ((expo : ℤ) - 150)
    .finite (if sign = 1 then -mag else mag)

/-- fxp_bytes_subscriber.deserialize_price: 4 bytes, IEEE 754 binary32,
little-endian. -/
def deserialize_price (b : List Nat) : F32 :=
  decodeF32 (leNat b)

/-- fxp_bytes_subscriber.deserialize_utcdatetime, as microseconds since the
epoch: 8 bytes, big-endian. -/
def deserialize_utcdatetime (b : List Nat) : Nat :=
  beNat b

/-- Python bytes.decode with the ascii codec: fails iff any byte is >= 128. -/
def decode_ascii (l : List Nat) : Option (List Char) :=
  if l.all (fun b => decide (b < 128)) then some (l.map Char.ofNat) else none

/-- One decoded wire quote: the joined cross string, the price, and the
timestamp in microseconds since the epoch. -/
structure WireQuote where
  cross : List Char
  price : F32
  timestamp : Nat
deriving DecidableEq

/-- One 32-byte record of `unmarshal_message` (lines 75-91): bytes 0-2 base
currency, 3-5 quote currency, 6-9 little-endian binary32 price, 10-17
big-endian timestamp, the rest ignored. -/
def parse_quote (blk : List Nat) : Option WireQuote :=
  match decode_ascii (blk.take 3), decode_ascii ((blk.drop 3).take 3) with
  | some c1, some c2 =>
    some ⟨c1 ++ '/' :: c2,
          deserialize_price ((blk.drop 6).take 4),
          deserialize_utcdatetime ((blk.drop 10).take 8)⟩
  | _, _ => none

/-- The consecutive 32-byte blocks examined by `unmarshal_message`:
`num_quotes = len(b) // 32` of them (line 72). -/
def quote_blocks (b : List Nat) : List (List Nat) :=
  (List.range (b.length / 32)).map (fun x => (b.drop (32 * x)).take 32)

/-- Option-valued traversal: all elements must decode, as a raised decode
exception aborts the whole message. -/
def traverseOpt {α β : Type} (f : α → Option β) : List α → Option (List β)
  | [] => some []
  | a :: l =>
    match f a, traverseOpt f l with
    | some b, some r => some (b :: r)
    | _, _ => none

/-- fxp_bytes_subscriber.unmarshal_message (lines 59-93) over a byte list. -/
def unmarshal_message (b : List Nat) : Option (List WireQuote) :=
  traverseOpt parse_quote (quote_blocks b)

/-- The empty subscriber state over natural-number currency codes. -/
def stEmpty : SubState Nat ℝ := ⟨[], []⟩

/-- A quote accepted first in the C4 scenario (timestamp 1 s). -/
noncomputable def q1N : Quote Nat := ⟨0, 1, 1, 1⟩

/-- A quote 0.05 s older than `q1N`, still inside the freshness tolerance. -/
noncomputable def q2N : Quote Nat := ⟨0, 1, 1, 19 / 20⟩

/-- A quote at timestamp 0, far below Last-Processed-Time 1. -/
noncomputable def q3N : Quote Nat := ⟨0, 1, 1, 0⟩

/-- A far-future quote (timestamp 100 s). -/
noncomputable def qFut : Quote Nat := ⟨0, 1, 1, 100⟩

/-- A quote far behind `qFut`. -/
noncomputable def qPast : Quote Nat := ⟨2, 3, 1, 0⟩

/-- A state whose two directed edges carry different recorded timestamps:
(0,1) at 0 s (stale against cutoff 5 s) and (1,0) at 10 s (fresh). -/
noncomputable def stC2 : SubState Nat ℝ :=
  ⟨[(0, [(1, 0)]), (1, [(0, 0)])], [((0, 1), 0), ((1, 0), 10)]⟩

/-- A two-node graph with both directed edges of weight 0. -/
noncomputable def gTwo : Graph Nat ℝ := [(0, [(1, 0)]), (1, [(0, 0)])]

/-- The predecessor map 0 <- 1 <- 0 (a two-cycle). -/
def pTwo : List (Nat × Option Nat) := [(0, some 1), (1, some 0)]

/-- A one-node graph with a self-loop edge of weight 0. -/
noncomputable def gSelf : Graph Nat ℝ := [(0, [(0, 0)])]

/-- The predecessor map sending node 0 to itself. -/
def pSelf : List (Nat × Option Nat) := [(0, some 0)]

/-- A 33-byte payload: one full 32-byte record ("USD" "GBP", price bits of
1.0f, timestamp 1 microsecond) followed by one trailing byte. -/
def payload33 : List Nat :=
  [85, 83, 68, 71, 66, 80, 0, 0, 128, 63, 0, 0, 0, 0, 0, 0, 0, 1,
   0, 0, 0, 0, 0, 0, 0, 0, 0, 0, 0, 0, 0, 0, 0]

/-- The wire quote encoded by the first 32 bytes of `payload33`: the price
bit pattern 0x3F800000 is binary32 1.0. -/
def qWire : WireQuote :=
  ⟨['U', 'S', 'D', '/', 'G', 'B', 'P'], decodeF32 1065353216, 1⟩

section AListLemmas

variable {K V : Type} [DecidableEq K]

theorem alookup_updval_ne {m : List (K × V)} {k k2 : K} {f : V → V}
    (h : k2 ≠ k) : alookup k2 (updval m k f) = alookup k2 m := by
  induction m with
  | nil => rfl
  | cons e t ih =>
    simp only [updval, List.map_cons]
    by_cases hek : e.1 = k
    · have hne : ¬e.1 = k2 := fun hh => h (hh ▸ hek)
      rw [if_pos hek]
      simp only [alookup, if_neg hne]
      exact ih
    · rw [if_neg hek]
      simp only [alookup]
      by_cases he2 : e.1 = k2
      · rw [if_pos he2, if_pos he2]
      · rw [if_neg he2, if_neg he2]
        exact ih

theorem alookup_updval_self {m : List (K × V)} {k : K} {f : V → V} :
    alookup k (updval m k f) = (alookup k m).map f := by
  induction m with
  | nil => rfl
  | cons e t ih =>
    simp only [updval, List.map_cons]
    by_cases hek : e.1 = k
    · rw [if_pos hek]
      simp only [alookup, if_pos hek]
      rfl
    · rw [if_neg hek]
      simp only [alookup, if_neg hek]
      exact ih

theorem alookup_append_left {m1 m2 : List (K × V)} {k : K} {v : V}
    (h : alookup k m1 = some v) : alookup k (m1 ++ m2) = some v := by
  induction m1 with
  | nil => simp [alookup] at h
  | cons e t ih =>
    by_cases he : e.1 = k
    · simpa [alookup, he] using h
    · simp only [alookup, if_neg he] at h
      simpa [alookup, he] using ih h

theorem alookup_append_right {m1 m2 : List (K × V)} {k : K}
    (h : alookup k m1 = none) : alookup k (m1 ++ m2) = alookup k m2 := by
  induction m1 with
  | nil => rfl
  | cons e t ih =>
    by_cases he : e.1 = k
    · simp [alookup, he] at h
    · simp only [alookup, if_neg he] at h
      simpa [alookup, he] using ih h

theorem alookup_dset_self {m : List (K × V)} {k : K} {v : V} :
    alookup k (dset m k v) = some v := by
  unfold dset
  by_cases h : (alookup k m).isSome
  · rcases Option.isSome_iff_exists.mp h with ⟨w, hw⟩
    simp [h, alookup_updval_self, hw]
  · have hn : alookup k m = none := Option.not_isSome_iff_eq_none.mp h
    simp only [h, if_false, Bool.false_eq_true]
    rw [alookup_append_right hn]
    simp [alookup]

theorem alookup_dset_ne {m : List (K × V)} {k k2 : K} {v : V} (h : k2 ≠ k) :
    alookup k2 (dset m k v) = alookup k2 m := by
  unfold dset
  by_cases hp : (alookup k m).isSome
  · simp [hp, alookup_updval_ne h]
  · simp only [hp, if_false, Bool.false_eq_true]
    by_cases h2 : (alookup k2 m).isSome
    · rcases Option.isSome_iff_exists.mp h2 with ⟨w, hw⟩
      rw [hw, alookup_append_left hw]
    · have hn : alookup k2 m = none := Option.not_isSome_iff_eq_none.mp h2
      rw [alookup_append_right hn, hn]
      simp [alookup, Ne.symm h]

theorem alookup_filter_key (q : K → Bool) (m : List (K × V)) (k : K) :
    alookup k (m.filter (fun e => q e.1)) =
      if q k then alookup k m else none := by
  induction m with
  | nil => simp [alookup]
  | cons e t ih =>
    by_cases he : e.1 = k
    · subst he
      by_cases hq : q e.1 <;> simp [alookup, hq, List.filter_cons, ih]
    · by_cases hq : q e.1 <;> simp [alookup, hq, he, List.filter_cons, ih]

theorem alookup_eq_none_of_not_mem {m : List (K × V)} {k : K}
    (h : k ∉ m.map Prod.fst) : alookup k m = none := by
  induction m with
  | nil => rfl
  | cons e t ih =>
    simp only [List.map_cons, List.mem_cons] at h
    push_neg at h
    obtain ⟨h1, h2⟩ := h
    simp only [alookup]
    rw [if_neg (fun he => h1 he.symm)]
    exact ih h2

theorem mem_keys_of_alookup {m : List (K × V)} {k : K} {v : V}
    (h : alookup k m = some v) : k ∈ m.map Prod.fst := by
  by_contra hc
  rw [alookup_eq_none_of_not_mem hc] at h
  exact Option.noConfusion h

end AListLemmas

section GraphLemmas

variable {C W : Type} [DecidableEq C]

theorem alookup_ensure_self {g : Graph C W} {c : C} :
    alookup c (ensure_node g c) = some ((alookup c g).getD []) := by
  unfold ensure_node
  by_cases h : (alookup c g).isSome
  · rcases Option.isSome_iff_exists.mp h with ⟨w, hw⟩
    simp [h, hw]
  · have hn : alookup c g = none := Option.not_isSome_iff_eq_none.mp h
    simp only [h, if_false, Bool.false_eq_true]
    rw [alookup_append_right hn, hn]
    simp [alookup]

theorem alookup_ensure_ne {g : Graph C W} {c c2 : C} (h : c2 ≠ c) :
    alookup c2 (ensure_node g c) = alookup c2 g := by
  unfold ensure_node
  by_cases hp : (alookup c g).isSome
  · simp [hp]
  · simp only [hp, if_false, Bool.false_eq_true]
    by_cases h2 : (alookup c2 g).isSome
    · rcases Option.isSome_iff_exists.mp h2 with ⟨w, hw⟩
      rw [hw, alookup_append_left hw]
    · have hn : alookup c2 g = none := Option.not_isSome_iff_eq_none.mp h2
      rw [alookup_append_right hn, hn]
      simp [alookup, Ne.symm h]

theorem glookup_set_edge {g : Graph C W} {s t u v : C} {w : W} :
    glookup (set_edge g s t w) u v =
      if u = s ∧ v = t then some w else glookup g u v := by
  unfold set_edge glookup
  by_cases hu : u = s
  · subst hu
    rw [alookup_updval_self, alookup_ensure_self]
    simp only [Option.map_some']
    by_cases hv : v = t
    · subst hv
      simp [alookup_dset_self]
    · rw [alookup_dset_ne hv]
      cases hg : alookup u g with
      | none => simp [hv, alookup, hg]
      | some inner => simp [hv, hg]
  · rw [alookup_updval_ne hu, alookup_ensure_ne hu]
    simp [hu]

theorem glookup_delInner {g : Graph C W} {s t u v : C} :
    glookup (delInner g s t) u v =
      if u = s ∧ v = t then none else glookup g u v := by
  unfold delInner glookup
  by_cases hu : u = s
  · subst hu
    rw [alookup_updval_self]
    cases hg : alookup u g with
    | none => simp
    | some inner =>
      simp only [Option.map_some']
      have heq : alookup v (inner.filter (fun p => decide (p.1 ≠ t))) =
          if decide (v ≠ t) then alookup v inner else none :=
        alookup_filter_key (fun x => decide (x ≠ t)) inner v
      rw [heq]
      by_cases hv : v = t <;> simp [hv]
  · rw [alookup_updval_ne hu]
    simp [hu]

end GraphLemmas

section CleanupLemmas

variable {C W : Type} [DecidableEq C]

theorem glookup_cleanupStep {st : SubState C W} {p : C × C} {u v : C} :
    glookup (cleanupStep st p).rate_graph u v =
      if (u, v) = p ∨ (v, u) = p then none
      else glookup st.rate_graph u v := by
  show glookup (delInner (delInner st.rate_graph p.1 p.2) p.2 p.1) u v = _
  rw [glookup_delInner, glookup_delInner]
  by_cases h1 : (u, v) = p
  · have hu : u = p.1 := by rw [← h1]
    have hv : v = p.2 := by rw [← h1]
    simp [hu, hv, h1]
  · by_cases h2 : (v, u) = p
    · have hv : v = p.1 := by rw [← h2]
      have hu : u = p.2 := by rw [← h2]
      simp [hu, hv, h2]
    · have hn1 : ¬(u = p.2 ∧ v = p.1) := by
        intro ⟨a, b⟩
        exact h2 (by rw [a, b])
      have hn2 : ¬(u = p.1 ∧ v = p.2) := by
        intro ⟨a, b⟩
        exact h1 (by rw [a, b])
      simp [hn1, hn2, h1, h2]

theorem ts_cleanupStep {st : SubState C W} {p q : C × C} :
    alookup q (cleanupStep st p).quote_timestamps =
      if q = p ∨ q = p.swap then none
      else alookup q st.quote_timestamps := by
  show alookup q (st.quote_timestamps.filter
      (fun e => decide (e.1 ≠ p) && decide (e.1 ≠ p.swap))) = _
  have heq : alookup q (st.quote_timestamps.filter
      (fun e => decide (e.1 ≠ p) && decide (e.1 ≠ p.swap))) =
      if decide (q ≠ p) && decide (q ≠ p.swap) then
        alookup q st.quote_timestamps else none :=
    alookup_filter_key (fun x => decide (x ≠ p) && decide (x ≠ p.swap))
      st.quote_timestamps q
  rw [heq]
  by_cases h1 : q = p
  · simp [h1]
  · by_cases h2 : q = p.swap <;> simp [h1, h2]

theorem glookup_cleanup_foldl {u v : C} :
    ∀ (L : List (C × C)) (st : SubState C W),
      glookup (L.foldl cleanupStep st).rate_graph u v =
        if (u, v) ∈ L ∨ (v, u) ∈ L then none
        else glookup st.rate_graph u v := by
  intro L
  induction L with
  | nil => intro st; simp
  | cons p L ih =>
    intro st
    rw [List.foldl_cons, ih, glookup_cleanupStep]
    simp only [List.mem_cons]
    by_cases h1 : (u, v) = p ∨ (v, u) = p <;>
      by_cases h2 : (u, v) ∈ L ∨ (v, u) ∈ L <;>
      first
      | (have hc : ((u, v) = p ∨ (u, v) ∈ L) ∨ ((v, u) = p ∨ (v, u) ∈ L) := by
          tauto
         simp [h1, h2, hc])
      | (have hc : ¬(((u, v) = p ∨ (u, v) ∈ L) ∨ ((v, u) = p ∨ (v, u) ∈ L)) := by
          tauto
         simp [h1, h2, hc])

theorem mem_ts_cleanup_foldl {e : (C × C) × ℚ} :
    ∀ (L : List (C × C)) (st : SubState C W),
      e ∈ (L.foldl cleanupStep st).quote_timestamps →
        e ∈ st.quote_timestamps ∧ e.1 ∉ L := by
  intro L
  induction L with
  | nil => intro st h; exact ⟨h, by simp⟩
  | cons p L ih =>
    intro st h
    rw [List.foldl_cons] at h
    obtain ⟨hmem, hnot⟩ := ih (cleanupStep st p) h
    have hm := List.mem_filter.mp hmem
    refine ⟨hm.1, ?_⟩
    simp only [Bool.and_eq_true, decide_eq_true_eq] at hm
    simp only [List.mem_cons, not_or]
    exact ⟨hm.2.1, hnot⟩

theorem mem_stale_list {ts : List ((C × C) × ℚ)} {cut : ℚ} {p : C × C} :
    p ∈ stale_list ts cut ↔ staleB ts cut p = true := by
  unfold stale_list staleB
  rw [List.mem_map, List.any_eq_true]
  constructor
  · rintro ⟨e, he, rfl⟩
    have hf := List.mem_filter.mp he
    exact ⟨e, hf.1, by simp [hf.2]⟩
  · rintro ⟨e, he, hp⟩
    simp only [Bool.and_eq_true, decide_eq_true_eq] at hp
    exact ⟨e, List.mem_filter.mpr ⟨he, by simp [hp.2]⟩, hp.1⟩

end CleanupLemmas

section WalkLemmas

variable {C : Type} [DecidableEq C]

theorem walkN_eq_iterate (preds : List (C × Option C)) :
    ∀ (n : Nat) (c : C),
      walkN preds c n = (fun o => Option.bind o (pget preds))^[n] (some c) := by
  intro n
  induction n with
  | zero => intro c; simp [walkN]
  | succ n ih =>
    intro c
    rw [Function.iterate_succ_apply]
    cases h : pget preds c with
    | none =>
      have hw : walkN preds c (n + 1) = none := by simp [walkN, h]
      have hb : (some c).bind (pget preds) = none := by simp [h]
      rw [hw, hb]
      exact (Function.iterate_fixed rfl n).symm
    | some c2 =>
      have hw : walkN preds c (n + 1) = walkN preds c2 n := by simp [walkN, h]
      rw [hw, ih]
      congr 1
      simp [h]

theorem pget_patch (preds : List (C × Option C)) (u v c : C) :
    pget (patch_preds preds u v) c =
      if c = v ∧ pget preds v = none then some u else pget preds c := by
  unfold patch_preds
  by_cases hv : pget preds v = none
  · rw [if_pos hv]
    by_cases hc : c = v
    · subst hc
      rw [if_pos ⟨rfl, hv⟩]
      unfold pget
      rw [alookup_dset_self]
      rfl
    · rw [if_neg (fun hand => hc hand.1)]
      unfold pget
      rw [alookup_dset_ne hc]
  · rw [if_neg hv, if_neg (fun hand => hv hand.2)]

theorem pget_some_key {preds : List (C × Option C)} {c d : C}
    (h : pget preds c = some d) : c ∈ keysOf preds := by
  unfold pget at h
  cases ha : alookup c preds with
  | none => rw [ha] at h; exact Option.noConfusion h
  | some o => exact List.mem_dedup.mpr (mem_keys_of_alookup ha)

theorem walkSteps_none (preds : List (C × Option C)) (start : C)
    (visited : List C) :
    ∀ fuel, walkSteps preds start visited none fuel = [] := by
  intro fuel
  cases fuel <;> rfl

theorem filter_not_mem_cons_length {l visited : List C} {c : C}
    (hnd : l.Nodup) (hc : c ∈ l) (hv : c ∉ visited) :
    (l.filter (fun k => !decide (k ∈ c :: visited))).length + 1 =
      (l.filter (fun k => !decide (k ∈ visited))).length := by
  induction l with
  | nil => cases hc
  | cons a t ih =>
    rw [List.nodup_cons] at hnd
    rcases List.mem_cons.mp hc with rfl | hct
    · have hfc : t.filter (fun k => !decide (k ∈ c :: visited)) =
          t.filter (fun k => !decide (k ∈ visited)) := by
        apply List.filter_congr
        intro x hx
        have hxc : x ≠ c := fun h => hnd.1 (h ▸ hx)
        simp [List.mem_cons, hxc]
      simp only [List.filter_cons]
      have h1 : (!decide (c ∈ c :: visited)) = false := by simp
      have h2 : (!decide (c ∈ visited)) = true := by simp [hv]
      rw [h1, h2, hfc]
      simp
    · by_cases hac : a = c
      · exact absurd (hac ▸ hct) hnd.1
      · simp only [List.filter_cons]
        by_cases ha : a ∈ visited
        · have h1 : (!decide (a ∈ c :: visited)) = false := by
            simp [List.mem_cons, ha]
          have h2 : (!decide (a ∈ visited)) = false := by simp [ha]
          rw [h1, h2]
          simp only [if_false, Bool.false_eq_true]
          exact ih hnd.2 hct
        · have h1 : (!decide (a ∈ c :: visited)) = true := by
            simp [List.mem_cons, ha, hac]
          have h2 : (!decide (a ∈ visited)) = true := by simp [ha]
          rw [h1, h2]
          simp only [if_true]
          rw [List.length_cons, List.length_cons]
          have := ih hnd.2 hct
          omega

theorem unvisitedCount_cons (preds : List (C × Option C)) (visited : List C)
    (c : C) (hkey : c ∈ keysOf preds) (hv : c ∉ visited) :
    unvisitedCount preds (c :: visited) + 1 = unvisitedCount preds visited :=
  filter_not_mem_cons_length (List.nodup_dedup _) hkey hv

theorem unvisitedCount_nil (preds : List (C × Option C)) :
    unvisitedCount preds [] = (keysOf preds).length := by
  unfold unvisitedCount
  simp

theorem walkSteps_length_le (preds : List (C × Option C)) (start : C) :
    ∀ (fuel : Nat) (visited : List C) (o : Option C),
      (walkSteps preds start visited o fuel).length ≤
        unvisitedCount preds visited + 1 := by
  intro fuel
  induction fuel with
  | zero => intro visited o; cases o <;> simp [walkSteps]
  | succ fuel ih =>
    intro visited o
    cases o with
    | none => simp [walkSteps]
    | some c =>
      by_cases hvis : c ∈ visited
      · simp [walkSteps, hvis]
      · cases hn : pget preds c with
        | none =>
          simp [walkSteps, hvis, hn, walkSteps_none]
        | some d =>
          have hkey : c ∈ keysOf preds := pget_some_key hn
          have hdec := unvisitedCount_cons preds visited c hkey hvis
          by_cases hd : d = start
          · have hll : walkSteps preds start visited (some c) (fuel + 1) =
                [c, start] := by
              simp [walkSteps, hvis, hn, hd]
            rw [hll]
            have h2 : ([c, start] : List C).length = 2 := rfl
            omega
          · have hne : ¬(some d = some start) := by simp [hd]
            simp only [walkSteps, if_neg hvis, hn, if_neg hne,
              List.length_cons]
            have := ih (c :: visited) (some d)
            omega

theorem walkSteps_fuel (preds : List (C × Option C)) (start : C) :
    ∀ (f1 f2 : Nat) (visited : List C) (o : Option C),
      unvisitedCount preds visited + 1 ≤ f1 →
      unvisitedCount preds visited + 1 ≤ f2 →
      walkSteps preds start visited o f1 = walkSteps preds start visited o f2 := by
  intro f1
  induction f1 with
  | zero => intro f2 visited o h1 h2; omega
  | succ f1 ih =>
    intro f2 visited o h1 h2
    cases f2 with
    | zero => omega
    | succ f2 =>
      cases o with
      | none => rw [walkSteps_none, walkSteps_none]
      | some c =>
        by_cases hvis : c ∈ visited
        · simp [walkSteps, hvis]
        · cases hn : pget preds c with
          | none => simp [walkSteps, hvis, hn, walkSteps_none]
          | some d =>
            have hkey : c ∈ keysOf preds := pget_some_key hn
            have hdec := unvisitedCount_cons preds visited c hkey hvis
            by_cases hd : d = start
            · simp [walkSteps, hvis, hn, hd]
            · have hne : ¬(some d = some start) := by simp [hd]
              simp only [walkSteps, if_neg hvis, hn, if_neg hne]
              congr 1
              exact ih f2 (c :: visited) (some d) (by omega) (by omega)

end WalkLemmas

section ReplayLemmas

variable {C : Type} [DecidableEq C]

theorem replay_chain {g : Graph C ℝ} :
    ∀ (l : List C) (a : ℝ) (prev : C) (x : ℝ),
      replay g a prev l = some x →
      List.Chain' (fun p q => (glookup g p q).isSome = true) (prev :: l) := by
  intro l
  induction l with
  | nil => intro a prev x _; simp
  | cons n rest ih =>
    intro a prev x h
    rw [List.chain'_cons]
    cases hg : glookup g prev n with
    | none =>
      rw [show replay g a prev (n :: rest) = none by simp [replay, hg]] at h
      exact Option.noConfusion h
    | some w =>
      rw [show replay g a prev (n :: rest) =
          replay g (a * Real.exp (-1 * w)) n rest by simp [replay, hg]] at h
      exact ⟨by simp [hg], ih _ n x h⟩

end ReplayLemmas

theorem traverseOpt_some {α β : Type} (f : α → Option β) :
    ∀ (l : List α) (r : List β), traverseOpt f l = some r →
      r.length = l.length ∧
      ∀ i (h1 : i < l.length) (h2 : i < r.length),
        f (l.get ⟨i, h1⟩) = some (r.get ⟨i, h2⟩) := by
  intro l
  induction l with
  | nil =>
    intro r h
    simp only [traverseOpt, Option.some.injEq] at h
    subst h
    exact ⟨rfl, fun i h1 _ => absurd h1 (by simp)⟩
  | cons a t ih =>
    intro r h
    simp only [traverseOpt] at h
    cases hf : f a with
    | none => rw [hf] at h; exact Option.noConfusion h
    | some b =>
      rw [hf] at h
      cases ht : traverseOpt f t with
      | none => rw [ht] at h; exact Option.noConfusion h
      | some rt =>
        rw [ht] at h
        obtain rfl : b :: rt = r := Option.some.inj h
        obtain ⟨hlen, hidx⟩ := ih rt ht
        refine ⟨by simp [hlen], ?_⟩
        intro i h1 h2
        cases i with
        | zero => simpa using hf
        | succ i =>
          simpa using hidx i (by simpa using h1) (by simpa using h2)

/-- Claim C1, amended to distinct base and quote currencies: after
`add_to_graph` on an arbitrary prior state, the graph holds edge
base -> quote with weight exactly `-ln price` and edge quote -> base with
weight `ln price`, both directed timestamp entries record the quote's
timestamp, and `exp` of the negated forward weight recovers the price
exactly. -/
theorem add_to_graph_spec {C : Type} [DecidableEq C] (st : SubState C ℝ)
    (c1 c2 : C) (p : ℝ) (ts : ℚ) (hne : c1 ≠ c2) (hp : 0 < p) :
    glookup (add_to_graph st c1 c2 p ts).rate_graph c1 c2 =
      some (-Real.log p) ∧
    glookup (add_to_graph st c1 c2 p ts).rate_graph c2 c1 =
      some (Real.log p) ∧
    alookup (c1, c2) (add_to_graph st c1 c2 p ts).quote_timestamps = some ts ∧
    alookup (c2, c1) (add_to_graph st c1 c2 p ts).quote_timestamps = some ts ∧
    Real.exp (-(-Real.log p)) = p := by
  have hg : (add_to_graph st c1 c2 p ts).rate_graph =
      set_edge (set_edge st.rate_graph c1 c2 (-1 * Real.log p)) c2 c1
        (-1 * (-1 * Real.log p)) := rfl
  have ht : (add_to_graph st c1 c2 p ts).quote_timestamps =
      dset (dset st.quote_timestamps (c1, c2) ts) (c2, c1) ts := rfl
  have hpair : ((c1, c2) : C × C) ≠ (c2, c1) :=
    fun h => hne (congrArg Prod.fst h)
  refine ⟨?_, ?_, ?_, ?_, ?_⟩
  · rw [hg, glookup_set_edge, glookup_set_edge]
    rw [if_neg (fun hand => hne hand.1), if_pos ⟨rfl, rfl⟩]
    congr 1
    ring
  · rw [hg, glookup_set_edge]
    rw [if_pos ⟨rfl, rfl⟩]
    congr 1
    ring
  · rw [ht, alookup_dset_ne hpair, alookup_dset_self]
  · rw [ht, alookup_dset_self]
  · rw [neg_neg, Real.exp_log hp]

/-- Counterexample to claim C1 as stated: a quote whose base and quote
currency coincide leaves the single edge with weight `+ln price`, not
`-ln price`, because the reciprocal write overwrites the forward write. -/
theorem add_to_graph_self_pair_cex :
    glookup (add_to_graph stEmpty 0 0 2 0).rate_graph 0 0 ≠
      some (-Real.log 2) := by
  have hv : glookup (add_to_graph stEmpty 0 0 2 0).rate_graph 0 0 =
      some (-1 * (-1 * Real.log 2)) := by
    have hg : (add_to_graph stEmpty 0 0 2 0).rate_graph =
        set_edge (set_edge stEmpty.rate_graph 0 0 (-1 * Real.log 2)) 0 0
          (-1 * (-1 * Real.log 2)) := rfl
    rw [hg, glookup_set_edge, if_pos ⟨rfl, rfl⟩]
  rw [hv]
  intro h
  have h2 := Option.some.inj h
  have hlog : 0 < Real.log 2 := Real.log_pos (by norm_num)
  nlinarith [h2]

/-- Witness for the amended claim C1 at a concrete quote (0 -> 1, price 2,
timestamp 0) over the empty state. -/
theorem add_to_graph_spec_witness :
    glookup (add_to_graph stEmpty 0 1 2 0).rate_graph 0 1 =
      some (-Real.log 2) ∧
    glookup (add_to_graph stEmpty 0 1 2 0).rate_graph 1 0 =
      some (Real.log 2) ∧
    alookup ((0 : Nat), (1 : Nat))
      (add_to_graph stEmpty 0 1 2 0).quote_timestamps = some 0 ∧
    alookup ((1 : Nat), (0 : Nat))
      (add_to_graph stEmpty 0 1 2 0).quote_timestamps = some 0 ∧
    Real.exp (-(-Real.log 2)) = 2 :=
  add_to_graph_spec stEmpty 0 1 2 0 (by decide) (by norm_num)

/-- Claim C2, amended: the staleness sweep removes a directed edge (u, v)
exactly when either (u, v) or its reverse (v, u) carries a recorded
timestamp at or below `now - QUOTE_STALE_TIMEOUT`; the two directions are
evicted together, not independently. -/
theorem cleanup_graph_edge_spec {C W : Type} [DecidableEq C]
    (st : SubState C W) (now : ℚ) (u v : C) :
    glookup (cleanup_graph st now).rate_graph u v =
      if staleB st.quote_timestamps (now - QUOTE_STALE_TIMEOUT) (u, v) ∨
          staleB st.quote_timestamps (now - QUOTE_STALE_TIMEOUT) (v, u) then
        none
      else glookup st.rate_graph u v := by
  unfold cleanup_graph
  rw [glookup_cleanup_foldl]
  exact if_congr (or_congr mem_stale_list mem_stale_list) rfl rfl

/-- Counterexample to claim C2 as stated: in `stC2` the pair (1, 0) has the
fresh recorded timestamp 10 s, yet its edge is removed by the sweep at
now = 6.5 s because the opposite pair (0, 1) is stale. -/
theorem cleanup_removes_pair_cex :
    glookup (cleanup_graph stC2 (13 / 2)).rate_graph 1 0 = none ∧
    alookup ((1 : Nat), (0 : Nat)) stC2.quote_timestamps = some 10 ∧
    ¬((10 : ℚ) ≤ 13 / 2 - QUOTE_STALE_TIMEOUT) := by
  have hcut : (13 : ℚ) / 2 - QUOTE_STALE_TIMEOUT = 5 := by
    norm_num [QUOTE_STALE_TIMEOUT]
  have hL : stale_list stC2.quote_timestamps 5 = [(0, 1)] := by
    have hts : stC2.quote_timestamps =
        [(((0 : Nat), (1 : Nat)), (0 : ℚ)), (((1 : Nat), (0 : Nat)), (10 : ℚ))] :=
      rfl
    simp only [stale_list, hts, List.filter_cons, List.filter_nil]
    norm_num
  refine ⟨?_, rfl, by norm_num [QUOTE_STALE_TIMEOUT]⟩
  show glookup ((stale_list stC2.quote_timestamps
      (13 / 2 - QUOTE_STALE_TIMEOUT)).foldl cleanupStep stC2).rate_graph 1 0 =
    none
  rw [hcut, hL]
  rfl

/-- Claim C3: a quote whose timestamp is strictly below
Last-Processed-Time minus QUOTE_EXPIRATION_TIME is dropped, leaving the
graph, the timestamp index and Last-Processed-Time unchanged. -/
theorem stale_quote_no_mutation {C : Type} [DecidableEq C] (st : SubState C ℝ)
    (lpt : ℚ) (q : Quote C)
    (h : q.timestamp < lpt - QUOTE_EXPIRATION_TIME) :
    process_quote st lpt q = (st, lpt) := by
  unfold process_quote
  rw [if_neg]
  unfold QUOTE_EXPIRATION_TIME at h ⊢
  linarith

/-- Witness for claim C3: a quote at 0 s against Last-Processed-Time 1 s is
dropped without mutation. -/
theorem stale_quote_no_mutation_witness :
    process_quote stEmpty 1 q3N = (stEmpty, 1) :=
  stale_quote_no_mutation stEmpty 1 q3N
    (by norm_num [q3N, QUOTE_EXPIRATION_TIME])

/-- Claim C4, amended: Last-Processed-Time equals the timestamp of the most
recently accepted quote — acceptance sets it to that quote's timestamp
(which may move it backward by less than QUOTE_EXPIRATION_TIME), and
rejection leaves both it and the state unchanged. -/
theorem lpt_acceptance_spec {C : Type} [DecidableEq C] (st : SubState C ℝ)
    (lpt : ℚ) (q : Quote C) :
    (lpt - q.timestamp < QUOTE_EXPIRATION_TIME →
      process_quote st lpt q =
        (add_to_graph st q.base q.quote q.price q.timestamp, q.timestamp)) ∧
    (¬lpt - q.timestamp < QUOTE_EXPIRATION_TIME →
      process_quote st lpt q = (st, lpt)) := by
  constructor
  · intro h
    unfold process_quote
    rw [if_pos h]
  · intro h
    unfold process_quote
    rw [if_neg h]

/-- Counterexample to claim C4 as stated: after accepting a quote at 1 s and
then a quote at 0.95 s (both pass the gate), Last-Processed-Time is
0.95 s — acceptance decreased it below the latest accepted timestamp. -/
theorem lpt_decrease_cex :
    (process_quotes stEmpty 0 [q1N, q2N]).2 = 19 / 20 ∧ (19 / 20 : ℚ) < 1 := by
  have hc1 : (0 : ℚ) - q1N.timestamp < QUOTE_EXPIRATION_TIME := by
    norm_num [q1N, QUOTE_EXPIRATION_TIME]
  have hc2 : (1 : ℚ) - q2N.timestamp < QUOTE_EXPIRATION_TIME := by
    norm_num [q2N, QUOTE_EXPIRATION_TIME]
  have s1 : process_quote stEmpty (0 : ℚ) q1N =
      (add_to_graph stEmpty 0 1 1 1, 1) := by
    unfold process_quote
    rw [if_pos hc1]
    rfl
  have s2 : process_quote (add_to_graph stEmpty 0 1 1 1) 1 q2N =
      (add_to_graph (add_to_graph stEmpty 0 1 1 1) 0 1 1 (19 / 20), 19 / 20) := by
    unfold process_quote
    rw [if_pos hc2]
    rfl
  refine ⟨?_, by norm_num⟩
  unfold process_quotes
  rw [List.foldl_cons, List.foldl_cons, List.foldl_nil]
  show (process_quote (process_quote stEmpty 0 q1N).1
      (process_quote stEmpty 0 q1N).2 q2N).2 = 19 / 20
  rw [s1]
  show (process_quote (add_to_graph stEmpty 0 1 1 1) 1 q2N).2 = 19 / 20
  rw [s2]

/-- Witness for the amended claim C4: accepting the concrete quote `q1N`
sets Last-Processed-Time to its timestamp. -/
theorem lpt_acceptance_spec_witness :
    process_quote stEmpty 0 q1N = (add_to_graph stEmpty 0 1 1 1, 1) :=
  (lpt_acceptance_spec stEmpty 0 q1N).1
    (by norm_num [q1N, QUOTE_EXPIRATION_TIME])

/-- Claim C5: on a proof edge (u, v), the loop patches predecessors[v] to u
exactly when it reads as unset, the walk-back from u equals `len(rate_graph)`
iterations of the (none-absorbing) predecessor lookup, and reconstruction is
invoked exactly on a non-missing walk result. -/
theorem proof_edge_walk_spec {C : Type} [DecidableEq C] (g : Graph C ℝ)
    (preds : List (C × Option C)) (u v : C) (amount : ℝ) (fuel : Nat) :
    choose_cycle_node g preds (u, v) =
      (fun o => Option.bind o (pget (patch_preds preds u v)))^[g.length]
        (some u) ∧
    (∀ c, pget (patch_preds preds u v) c =
      if c = v ∧ pget preds v = none then some u else pget preds c) ∧
    proof_edge_report g preds (u, v) amount fuel =
      Option.bind (choose_cycle_node g preds (u, v))
        (fun c => print_arbitrage g (patch_preds preds u v) c amount fuel) := by
  refine ⟨?_, ?_, ?_⟩
  · exact walkN_eq_iterate _ g.length u
  · intro c
    exact pget_patch preds u v c
  · unfold proof_edge_report
    cases h : choose_cycle_node g preds (u, v) <;> simp [h]

/-- Claim C6, amended: the reconstructor reports only when the collected
path has at least 2 entries and starts and ends at the walk-back start node
(the walk closed), with every consecutive edge present in the graph at
replay time; the path may however have fewer than 2 distinct nodes. -/
theorem print_arbitrage_only_closed {C : Type} [DecidableEq C]
    (g : Graph C ℝ) (preds : List (C × Option C)) (start : C) (a : ℝ)
    (fuel : Nat) (r : List C × ℝ)
    (h : print_arbitrage g preds start a fuel = some r) :
    2 ≤ r.1.length ∧ r.1.head? = some start ∧ r.1.getLast? = some start ∧
    List.Chain' (fun x y => (glookup g x y).isSome = true) r.1 := by
  cases hc : cycle_steps_of preds start fuel with
  | none =>
    simp only [print_arbitrage, hc] at h
    exact Option.noConfusion h
  | some steps =>
    simp only [print_arbitrage, hc] at h
    by_cases hlen : steps.length < 2
    · rw [if_pos hlen] at h; exact Option.noConfusion h
    rw [if_neg hlen] at h
    by_cases hhl : steps.head? ≠ steps.getLast?
    · rw [if_pos hhl] at h; exact Option.noConfusion h
    rw [if_neg hhl] at h
    push_neg at hhl
    cases hr : replay g a start steps.tail with
    | none => rw [hr] at h; exact Option.noConfusion h
    | some fin =>
      rw [hr] at h
      obtain rfl : (steps, fin) = r := Option.some.inj h
      have hlast : steps.getLast? = some start := by
        cases hp : pget preds start with
        | none =>
          simp only [cycle_steps_of, hp] at hc
          exact Option.noConfusion hc
        | some c0 =>
          simp only [cycle_steps_of, hp, Option.some.injEq] at hc
          rw [← hc, List.getLast?_reverse]
          rfl
      have hhead : steps.head? = some start := by rw [hhl, hlast]
      have hchain0 := replay_chain steps.tail a start fin hr
      have hcons : start :: steps.tail = steps := by
        cases steps with
        | nil => simp at hhead
        | cons s t =>
          have hs : s = start := by simpa using hhead
          rw [hs]
          rfl
      rw [hcons] at hchain0
      have hl2 : 2 ≤ steps.length := by omega
      exact ⟨hl2, hhead, hlast, hchain0⟩

/-- Counterexample to claim C6 as stated: with the self-loop predecessor map
`pSelf` and graph `gSelf`, a report is produced whose path [0, 0, 0] has
only one distinct node. -/
theorem print_arbitrage_self_loop_cex :
    (print_arbitrage gSelf pSelf 0 100 5).map Prod.fst = some [0, 0, 0] ∧
    ([0, 0, 0] : List Nat).dedup.length = 1 :=
  ⟨rfl, by decide⟩

/-- Witness for the amended claim C6 at a concrete closed two-cycle report
over `gTwo` and `pTwo`. -/
theorem print_arbitrage_only_closed_witness :
    2 ≤ ([0, 1, 0] : List Nat).length ∧
    ([0, 1, 0] : List Nat).head? = some 0 ∧
    ([0, 1, 0] : List Nat).getLast? = some 0 ∧
    List.Chain' (fun x y => (glookup gTwo x y).isSome = true) [0, 1, 0] :=
  print_arbitrage_only_closed gTwo pTwo 0 100 5
    ([0, 1, 0], 100 * Real.exp (-1 * 0) * Real.exp (-1 * 0)) rfl

/-- Claim C7: the staleness sweep is idempotent — a second pass with the same
clock value changes neither the graph nor the timestamp index. -/
theorem cleanup_graph_idempotent {C W : Type} [DecidableEq C]
    (st : SubState C W) (now : ℚ) :
    cleanup_graph (cleanup_graph st now) now = cleanup_graph st now := by
  have hnil : stale_list (cleanup_graph st now).quote_timestamps
      (now - QUOTE_STALE_TIMEOUT) = [] := by
    unfold stale_list
    rw [List.filter_eq_nil_iff.mpr, List.map_nil]
    intro e he
    simp only [decide_eq_true_eq]
    intro hle
    obtain ⟨hmem, hnot⟩ := mem_ts_cleanup_foldl
      (stale_list st.quote_timestamps (now - QUOTE_STALE_TIMEOUT)) st he
    exact hnot (List.mem_map.mpr
      ⟨e, List.mem_filter.mpr ⟨hmem, by simp [hle]⟩, rfl⟩)
  calc cleanup_graph (cleanup_graph st now) now
      = (stale_list (cleanup_graph st now).quote_timestamps
          (now - QUOTE_STALE_TIMEOUT)).foldl cleanupStep
          (cleanup_graph st now) := rfl
    _ = ([] : List (C × C)).foldl cleanupStep (cleanup_graph st now) := by
          rw [hnil]
    _ = cleanup_graph st now := rfl

/-- Claim C8, amended: a successfully decoded payload yields exactly
`len / 32` records (integer division — trailing bytes short of a full
32-byte record are silently ignored, not rejected), with the i-th record
parsed from the i-th consecutive 32-byte block. -/
theorem unmarshal_length_spec (b : List Nat) (qs : List WireQuote)
    (h : unmarshal_message b = some qs) :
    qs.length = b.length / 32 ∧
    ∀ i (h1 : i < qs.length),
      parse_quote ((b.drop (32 * i)).take 32) = some (qs.get ⟨i, h1⟩) := by
  unfold unmarshal_message at h
  obtain ⟨hlen, hidx⟩ := traverseOpt_some parse_quote (quote_blocks b) qs h
  have hqb : (quote_blocks b).length = b.length / 32 := by
    simp [quote_blocks]
  refine ⟨by rw [hlen, hqb], ?_⟩
  intro i h1
  have hib : i < (quote_blocks b).length := hlen ▸ h1
  have hg := hidx i hib h1
  have hget : (quote_blocks b).get ⟨i, hib⟩ = (b.drop (32 * i)).take 32 := by
    simp [quote_blocks]
  rw [hget] at hg
  exact hg

/-- Counterexample to claim C8 as stated: the 33-byte payload `payload33`
(not a multiple of 32) is decoded successfully into one record, the
trailing byte being silently ignored rather than rejected. -/
theorem unmarshal_partial_block_cex :
    (unmarshal_message payload33).map List.length = some 1 ∧
    payload33.length % 32 = 1 :=
  ⟨rfl, by decide⟩

/-- Witness for the amended claim C8 at the concrete 33-byte payload. -/
theorem unmarshal_length_spec_witness :
    ([qWire] : List WireQuote).length = payload33.length / 32 ∧
    ∀ i (h1 : i < ([qWire] : List WireQuote).length),
      parse_quote ((payload33.drop (32 * i)).take 32) =
        some (([qWire] : List WireQuote).get ⟨i, h1⟩) :=
  unmarshal_length_spec payload33 [qWire] rfl

/-- Claim C9: the reconstruction walk-back loop terminates — its result is
independent of any fuel of at least (distinct predecessor keys + 1), and the
collected path has at most (distinct predecessor keys + 2) entries. -/
theorem walkback_terminates {C : Type} [DecidableEq C]
    (preds : List (C × Option C)) (start : C) (f1 f2 : Nat)
    (h1 : (keysOf preds).length + 1 ≤ f1)
    (h2 : (keysOf preds).length + 1 ≤ f2) :
    cycle_steps_of preds start f1 = cycle_steps_of preds start f2 ∧
    ∀ s, cycle_steps_of preds start f1 = some s →
      s.length ≤ (keysOf preds).length + 2 := by
  have hnil := unvisitedCount_nil preds
  constructor
  · cases hp : pget preds start with
    | none => simp only [cycle_steps_of, hp]
    | some c =>
      simp only [cycle_steps_of, hp]
      rw [walkSteps_fuel preds start f1 f2 [] (some c) (by omega) (by omega)]
  · intro s hs
    cases hp : pget preds start with
    | none =>
      simp only [cycle_steps_of, hp] at hs
      exact Option.noConfusion hs
    | some c =>
      simp only [cycle_steps_of, hp, Option.some.injEq] at hs
      rw [← hs, List.length_reverse, List.length_cons]
      have hle := walkSteps_length_le preds start f1 [] (some c)
      omega

/-- Witness for claim C9 at the concrete two-cycle predecessor map `pTwo`
with fuel 3 on both sides. -/
theorem walkback_terminates_witness :
    cycle_steps_of pTwo 0 3 = cycle_steps_of pTwo 0 3 ∧
    ∀ s, cycle_steps_of pTwo 0 3 = some s →
      s.length ≤ (keysOf pTwo).length + 2 :=
  walkback_terminates pTwo 0 3 3 (by decide) (by decide)

/-- Claim C10: any quote at or after Last-Processed-Time is accepted — no
matter how far in the future — and Last-Processed-Time becomes its
timestamp, after which every quote more than QUOTE_EXPIRATION_TIME behind
it is rejected without mutation. -/
theorem future_quote_spec {C : Type} [DecidableEq C] (st : SubState C ℝ)
    (lpt : ℚ) (q : Quote C) (h : lpt ≤ q.timestamp) :
    process_quote st lpt q =
      (add_to_graph st q.base q.quote q.price q.timestamp, q.timestamp) ∧
    ∀ (st2 : SubState C ℝ) (q2 : Quote C),
      QUOTE_EXPIRATION_TIME < q.timestamp - q2.timestamp →
      process_quote st2 q.timestamp q2 = (st2, q.timestamp) := by
  constructor
  · unfold process_quote
    rw [if_pos]
    unfold QUOTE_EXPIRATION_TIME
    linarith
  · intro st2 q2 h2
    unfold process_quote
    rw [if_neg]
    linarith

/-- Witness for claim C10: the far-future quote `qFut` (100 s) is accepted
from Last-Processed-Time 0, and `qPast` (0 s) is then rejected. -/
theorem future_quote_spec_witness :
    process_quote stEmpty 0 qFut = (add_to_graph stEmpty 0 1 1 100, 100) ∧
    process_quote stEmpty 100 qPast = (stEmpty, 100) :=
  ⟨(future_quote_spec stEmpty 0 qFut (by norm_num [qFut])).1,
   (future_quote_spec stEmpty 0 qFut (by norm_num [qFut])).2 stEmpty qPast
     (by norm_num [qFut, qPast, QUOTE_EXPIRATION_TIME])⟩

end Arb
